import Mathlib

/-!
Shallow embedding of the codexer session module (the latest variant of
src/sessions.ts) together with the display-label helpers of the CLI and
TUI layers.  JSON values parsed from transcript lines are modelled by the
`Json` inductive; platform services are modelled by explicit parameters:

* a transcript file is given by its path, the parse outcomes of its
  non-empty trimmed lines within the 64 KiB prefix (as produced by
  `readFirstLines`), and its filesystem mtime in epoch milliseconds
  (`stats.mtime`, compared through `Date.getTime` by the sort);
* the name-override store file is given by its read/parse outcome
  (`none` = read failure or missing file, `some none` = content that is
  not valid JSON, `some (some j)` = content parsing to the value `j`).

JSON numbers are modelled as integers and JS strings as Lean strings
(one `Char` per UTF-16 code unit of the claims' inputs); exotic dynamic
behaviours that no transcript or claim exercises (numeric index
properties of primitive values, `length` properties, fractional
numbers) are outside the model and noted at the definitions concerned.
-/

namespace Codexer

/-- JSON values, as produced by JSON.parse on one line of a transcript
or on the name-override file. -/
inductive Json where
  | null : Json
  | bool (b : Bool) : Json
  | num (n : Int) : Json
  | str (s : String) : Json
  | arr (items : List Json) : Json
  | obj (fields : List (String × Json)) : Json

/-- Whether a JSON value is the literal null. -/
def Json.isNull : Json → Bool
  | .null => true
  | _ => false

mutual

/-- JS ToString coercion on JSON values.  Array elements print joined by
commas with null elements printing as empty, objects print as the fixed
object tag, mirroring JS Array.prototype.toString and
Object.prototype.toString. -/
def jsToString : Json → String
  | .null => "null"
  | .bool b => cond b "true" "false"
  | .num n => toString n
  | .str s => s
  | .obj _ => "[object Object]"
  | .arr items => String.intercalate "," (jsToStringItems items)

/-- Stringified elements of a JSON array under JS array joining. -/
def jsToStringItems : List Json → List String
  | [] => []
  | j :: rest => (if j.isNull then "" else jsToString j) :: jsToStringItems rest

end

/-- First-match lookup in the field list of a JSON object (objects built
by JSON.parse have unique keys, so first-match agrees with JS access). -/
def lookupField : List (String × Json) → String → Option Json
  | [], _ => none
  | p :: rest, k => if p.1 = k then some p.2 else lookupField rest k

/-- JS property access `j[k]` on a JSON value: a field of an object,
undefined (`none`) otherwise.  Index and `length` properties of strings
and arrays are outside the model (no session id or field name used by
the tool collides with them). -/
def jsGet : Json → String → Option Json
  | .obj fields, k => lookupField fields k
  | _, _ => none

/-- Property access that yields the field only when it is a JSON string,
modelling a strict equality comparison against a string literal. -/
def jsGetStr (j : Json) (k : String) : Option String :=
  match jsGet j k with
  | some (.str s) => some s
  | _ => none

/-- JS truthiness of a JSON value. -/
def Json.truthy : Json → Bool
  | .null => false
  | .bool b => b
  | .num n => n != 0
  | .str s => s != ""
  | .arr _ => true
  | .obj _ => true

/-- Nullish coalescing against a missing or null property: the value of
`v ?? ""` coerced to a string (the source stores these fields into
string-typed record fields). -/
def jsStrD (v : Option Json) : String :=
  match v with
  | none => ""
  | some .null => ""
  | some j => jsToString j

/-- Collapse of `v?.x` style results: a present-but-null value behaves
like an absent one under the nullish coalescing operator. -/
def jsNullish (v : Option Json) : Option Json :=
  match v with
  | some .null => none
  | o => o

/-- Whether the needle occurs as a contiguous run inside the haystack. -/
def hasInfix (needle : List Char) : List Char → Bool
  | [] => needle.isEmpty
  | c :: rest => needle.isPrefixOf (c :: rest) || hasInfix needle rest

/-- JS String.prototype.includes. -/
def jsIncludes (s sub : String) : Bool := hasInfix sub.data s.data

/-- Whether the first list is a prefix of the second. -/
def isPrefixB : List Char → List Char → Bool
  | [], _ => true
  | _ :: _, [] => false
  | p :: ps, c :: cs => p == c && isPrefixB ps cs

/-- JS String.prototype.startsWith. -/
def jsStartsWith (s pre : String) : Bool := isPrefixB pre.data s.data

/-- Characters removed by String.prototype.trim (the tool only meets
ASCII whitespace). -/
def jsTrimChars (l : List Char) : List Char :=
  ((l.dropWhile Char.isWhitespace).reverse.dropWhile Char.isWhitespace).reverse

/-- JS String.prototype.trim. -/
def jsTrim (s : String) : String := ⟨jsTrimChars s.data⟩

/-- Replacement of every maximal whitespace run by one space, the effect
of `value.replace` with a global one-or-more-whitespace pattern.  The
flag records whether the previous character was part of a run already
replaced. -/
def collapseWSAux : Bool → List Char → List Char
  | _, [] => []
  | inRun, c :: rest =>
    if c.isWhitespace then
      (if inRun then [] else [' ']) ++ collapseWSAux true rest
    else c :: collapseWSAux false rest

/-- Source function normalizeWhitespace: collapse whitespace runs to a
single space, then trim. -/
def normalizeWhitespace (s : String) : String := jsTrim ⟨collapseWSAux false s.data⟩

/-- Source function truncateTitle: values at most maxLength characters
long pass through, longer values are cut to maxLength minus three
characters and suffixed with the three-dot ellipsis marker (JS slice on
code units, modelled per character). -/
def truncateTitle (value : String) (maxLength : Nat) : String :=
  if value.length ≤ maxLength then value
  else String.mk (value.data.take (maxLength - 3)) ++ "..."

/-- First boilerplate marker: the environment context tag. -/
def markerEnvContext : String := "<environment_context>"

/-- Agent instruction file reference marker. -/
def markerAgents : String := "AGENTS.md"

/-- Instruction tag marker. -/
def markerInstructionsTag : String := "<INSTRUCTIONS>"

/-- Skills heading marker. -/
def markerSkillsHeading : String := "## Skills"

/-- Skills discovery banner marker. -/
def markerSkillsBanner : String := "These skills are discovered"

/-- Source function isIgnorablePrompt: the trimmed candidate is rejected
when it contains any of the fixed boilerplate markers. -/
def isIgnorablePrompt (text : String) : Bool :=
  let normalized := jsTrim text
  if jsIncludes normalized markerEnvContext then true
  else if jsIncludes normalized markerAgents || jsIncludes normalized markerInstructionsTag then
    true
  else if jsIncludes normalized markerSkillsHeading || jsIncludes normalized markerSkillsBanner then
    true
  else false

/-- A session record as built by readSessionMeta (the latest variant,
with lastModified taken from the filesystem). -/
structure SessionMeta where
  id : String
  timestamp : String
  lastModified : Nat
  cwd : String
  file : String
  title : Option String
  git : Json

/-- The id value reached by `parsed.payload?.id`: undefined (`none`)
when the payload is missing, null, or not an object, or has no id
field. -/
def payloadIdVal (j : Json) : Option Json :=
  jsGet ((jsGet j "payload").getD Json.null) "id"

/-- The candidate title text contributed by one parsed transcript line
inside extractTitle, `none` meaning the loop continues: the line failed
to parse, is not a user message response item, has no array content
(a non-array content makes the filter call throw, caught by the per-line
handler, and a null element makes the callback throw likewise), or
joins and trims to an empty text. -/
def lineCandidate (line : Option Json) : Option String :=
  match line with
  | none => none
  | some parsed =>
    if jsGetStr parsed "type" ≠ some "response_item" then none
    else
      let payload := (jsGet parsed "payload").getD Json.null
      if jsGetStr payload "type" ≠ some "message" then none
      else if jsGetStr payload "role" ≠ some "user" then none
      else
        match jsGet payload "content" with
        | some (Json.arr items) =>
          if items.any Json.isNull then none
          else
            let texts :=
              (items.filter (fun item => jsGetStr item "type" = some "input_text")).map
                (fun item => jsStrD (jsGet item "text"))
            let text := jsTrim (String.intercalate " " texts)
            if text = "" then none else some text
        | some _ => none
        | none => none

/-- Source function extractTitle: scan the parsed lines for the first
user message whose joined input text is non-empty and not boilerplate,
and return it whitespace-normalized and truncated to 60 characters. -/
def extractTitle : List (Option Json) → Option String
  | [] => none
  | line :: rest =>
    match lineCandidate line with
    | none => extractTitle rest
    | some text =>
      if isIgnorablePrompt text then extractTitle rest
      else some (truncateTitle (normalizeWhitespace text) 60)

/-- Source function readSessionMeta: the first line must parse to a
record tagged session_meta whose payload carries a truthy id, else the
whole file yields nothing; optional payload fields default to the empty
string or null, the mtime comes from the filesystem stat, and the title
is extracted from the full line list. -/
def readSessionMeta (lines : List (Option Json)) (file : String) (mtime : Nat) :
    Option SessionMeta :=
  match lines.head? with
  | none => none
  | some none => none
  | some (some parsed) =>
    if jsGetStr parsed "type" ≠ some "session_meta" then none
    else
      match payloadIdVal parsed with
      | none => none
      | some idv =>
        if idv.truthy then
          let payload := (jsGet parsed "payload").getD Json.null
          some ⟨jsToString idv,
                jsStrD (jsGet payload "timestamp"),
                mtime,
                jsStrD (jsGet payload "cwd"),
                file,
                extractTitle lines,
                (jsGet payload "git").getD Json.null⟩
        else none

/-- A transcript file as seen by listSessions: its absolute path, the
parse outcomes of its non-empty trimmed prefix lines, and its mtime. -/
structure TranscriptFile where
  path : String
  lines : List (Option Json)
  mtime : Nat

/-- The order imposed by the sort comparator of listSessions: the
comparator subtracts parsed times, placing later-modified records
first. -/
def recencyLE (a b : SessionMeta) : Prop := b.lastModified ≤ a.lastModified

instance : DecidableRel recencyLE := fun a b => Nat.decLe b.lastModified a.lastModified

instance : IsTotal SessionMeta recencyLE :=
  ⟨fun a b => (Nat.le_total b.lastModified a.lastModified).imp id id⟩

instance : IsTrans SessionMeta recencyLE :=
  ⟨fun _ _ _ hab hbc => Nat.le_trans hbc hab⟩

/-- Source function listSessions: extract a record per readable file and
sort descending by lastModified (the JS engine sort is modelled by an
insertion sort agreeing with the comparator). -/
def listSessions (files : List TranscriptFile) : List SessionMeta :=
  List.insertionSort recencyLE
    (files.filterMap (fun f => readSessionMeta f.lines f.path f.mtime))

/-- State of the name-override store file: `none` for a missing or
unreadable file, `some none` for content that is not valid JSON, and
`some (some j)` for content parsing to `j`. -/
abbrev StoreFile := Option (Option Json)

/-- Source function loadSessionNames: any read or parse failure falls to
the catch branch returning the empty mapping, and a parsed null falls to
the nullish default; any other parsed value is returned as is. -/
def loadSessionNames : StoreFile → Json
  | none => Json.obj []
  | some none => Json.obj []
  | some (some Json.null) => Json.obj []
  | some (some j) => j

/-- Own enumerable properties of a JSON value, as copied by a JS object
spread: object fields stay, primitives contribute nothing, strings and
arrays contribute index-keyed entries. -/
def jsSpreadProps : Json → List (String × Json)
  | .obj fields => fields
  | .null => []
  | .bool _ => []
  | .num _ => []
  | .str s =>
    ((List.range s.length).zip (s.data.map (fun c => Json.str ⟨[c]⟩))).map
      (fun p => (toString p.1, p.2))
  | .arr items =>
    ((List.range items.length).zip items).map (fun p => (toString p.1, p.2))

/-- Effect of a spread followed by a computed-key property: an existing
key keeps its position with the new value, a fresh key is appended. -/
def upsertEntry (fields : List (String × Json)) (k : String) (v : Json) :
    List (String × Json) :=
  if fields.any (fun p => p.1 == k) then
    fields.map (fun p => if p.1 = k then (k, v) else p)
  else fields ++ [(k, v)]

/-- The entry object written for a rename: name plus update time. -/
def entryJson (name now : String) : Json :=
  Json.obj [("name", Json.str name), ("updatedAt", Json.str now)]

/-- Source function saveSessionName: load the current mapping, set or
replace the entry for the id with the new name and the current time, and
write the whole mapping back (the written JSON parses back to itself, so
the stored state is the new object). -/
def saveSessionName (st : StoreFile) (id name now : String) : StoreFile :=
  let existing := loadSessionNames st
  some (some (Json.obj (upsertEntry (jsSpreadProps existing) id (entryJson name now))))

/-- Source function deleteSessionName: a missing or falsy entry reports
false without writing; otherwise the entry is removed from a copy of the
mapping, the copy is written back, and true is reported. -/
def deleteSessionName (st : StoreFile) (id : String) : Bool × StoreFile :=
  let existing := loadSessionNames st
  match jsGet existing id with
  | none => (false, st)
  | some v =>
    if v.truthy then
      (true, some (some (Json.obj ((jsSpreadProps existing).filter (fun p => p.1 != id)))))
    else (false, st)

/-- The override name reached by `names[session.id]?.name`: undefined
when the mapping has no entry for the id, the entry is null, or the
entry has no name field. -/
def nameChain (names : Json) (id : String) : Option Json :=
  match jsGet names id with
  | none => none
  | some entry => if entry.isNull then none else jsGet entry "name"

/-- Source function formatNameTitle (TUI row label): the override name
when non-nullish, else the title defaulted to the untitled placeholder;
the returned value is rendered as a string. -/
def formatNameTitle (session : SessionMeta) (names : Json) : String :=
  let name := jsNullish (nameChain names session.id)
  let title := session.title.getD "untitled"
  match name with
  | some v => jsToString v
  | none => title

/-- Display-name chain of the CLI list action: override name, else
title, else the unnamed placeholder. -/
def cliDisplayName (session : SessionMeta) (names : Json) : String :=
  match jsNullish (nameChain names session.id) with
  | some v => jsToString v
  | none =>
    match session.title with
    | some t => t
    | none => "unnamed"

/-- Label resolution as the spec words it, for comparison with the two
display sites: override name if present, else extracted title if
present, else a fixed placeholder. -/
def specResolveLabel (override : Option String) (title : Option String)
    (placeholder : String) : String :=
  match override with
  | some n => n
  | none =>
    match title with
    | some t => t
    | none => placeholder

/-- The override name visible to the display sites, as a string. -/
def overrideNameOf (names : Json) (id : String) : Option String :=
  (jsNullish (nameChain names id)).map jsToString

/-- POSIX path.isAbsolute: the path starts with the separator. -/
def jsIsAbsolute (s : String) : Bool :=
  match s.data with
  | c :: _ => c == '/'
  | [] => false

/-- Splitting a character list at every separator, keeping empty chunks
(POSIX path parsing before empty segments are discarded). -/
def splitChars : List Char → List (List Char)
  | [] => [[]]
  | c :: rest =>
    if c = '/' then [] :: splitChars rest
    else (c :: (splitChars rest).headI) :: (splitChars rest).tail

/-- Non-empty path segments of a character list. -/
def pathSegsC (l : List Char) : List (List Char) :=
  (splitChars l).filter (fun s => s ≠ [])

/-- Left-to-right processing of dot and dot-dot segments, with the
accumulator holding the output so far in reverse; a dot-dot at the root
of an absolute path is dropped, as node normalization does. -/
def normStep : List (List Char) → List (List Char) → List (List Char)
  | acc, [] => acc.reverse
  | acc, s :: rest =>
    if s = ['.'] then normStep acc rest
    else if s = ['.', '.'] then normStep acc.tail rest
    else normStep (s :: acc) rest

/-- Normalized segments of an absolute path. -/
def normSegs (l : List (List Char)) : List (List Char) := normStep [] l

/-- Segments of node path.resolve applied to one path against the
process working directory: an absolute input is normalized alone, a
relative one is appended to the working directory first. -/
def resolveSegs (cwd0 p : String) : List (List Char) :=
  normSegs (if jsIsAbsolute p then pathSegsC p.data else pathSegsC cwd0.data ++ pathSegsC p.data)

/-- Joining segments with the separator (no leading separator). -/
def joinSegs : List (List Char) → List Char
  | [] => []
  | [s] => s
  | s :: rest => s ++ '/' :: joinSegs rest

/-- Node path.resolve of one path against the process working
directory. -/
def resolvePath (cwd0 p : String) : String := ⟨'/' :: joinSegs (resolveSegs cwd0 p)⟩

/-- Length of the common segment prefix of two resolved paths, as the
head-comparison loop of node path.relative computes it. -/
def commonPrefixLen : List (List Char) → List (List Char) → Nat
  | a :: as, b :: bs => if a = b then commonPrefixLen as bs + 1 else 0
  | _, _ => 0

/-- Segments of the relative path from one resolved segment list to
another: one dot-dot per uncovered source segment, then the uncovered
target segments. -/
def relativeSegs (f t : List (List Char)) : List (List Char) :=
  List.replicate (f.length - commonPrefixLen f t) ['.', '.'] ++ t.drop (commonPrefixLen f t)

/-- Node path.relative on POSIX: both arguments are resolved against
the process working directory and the relative walk between them is
joined with separators (empty when the paths are equal). -/
def relativePath (cwd0 src dst : String) : String :=
  ⟨joinSegs (relativeSegs (resolveSegs cwd0 src) (resolveSegs cwd0 dst))⟩

/-- Source function isWithin: the child is inside the parent when the
relative path between them is empty, or neither starts with the two-dot
marker nor is absolute. -/
def isWithin (cwd0 parent child : String) : Bool :=
  let rel := relativePath cwd0 parent child
  if rel = "" then true
  else !(jsStartsWith rel "..") && !(jsIsAbsolute rel)

/-- Source function filterSessionsByCwd: resolve the scope once, keep
sessions with a non-empty recorded cwd whose resolved cwd is within the
scope. -/
def filterSessionsByCwd (cwd0 : String) (sessions : List SessionMeta) (cwd : String) :
    List SessionMeta :=
  let scope := resolvePath cwd0 cwd
  sessions.filter (fun session =>
    if session.cwd = "" then false
    else isWithin cwd0 scope (resolvePath cwd0 session.cwd))

/-- Whether the first of the target segments past the scope begins with
two dots; such a segment makes the startsWith test of the source fire
even though the path is a true descendant. -/
def firstSegDotDot : List (List Char) → Bool
  | [] => false
  | seg :: _ => isPrefixB ['.', '.'] seg

/-- Scope membership at segment level, following the amended wording of
the scope-filter claim: the resolved scope segments are a prefix of the
resolved cwd segments (equality included), except that a first extra
segment beginning with two dots is excluded. -/
def specWithinSegs (f t : List (List Char)) : Bool :=
  decide (t.take f.length = f) && !(firstSegDotDot (t.drop f.length))

/-- Retention predicate of the amended scope-filter claim. -/
def specRetained (cwd0 scope : String) (s : SessionMeta) : Bool :=
  decide (s.cwd ≠ "") && specWithinSegs (resolveSegs cwd0 scope) (resolveSegs cwd0 s.cwd)

/-- Descendant-or-equal on resolved path strings, as the original claim
words it. -/
def descendantOrEqual (scope p : String) : Prop :=
  p = scope ∨ ∃ rest, rest ≠ "" ∧ p = scope ++ "/" ++ rest

/-- A concrete session whose working directory is a true descendant of
the scope but whose relative path starts with two literal dots. -/
def cexSession : SessionMeta :=
  ⟨"cex", "", 0, "/a/..b", "/tmp/cex.jsonl", none, Json.null⟩

/-- A concrete transcript file whose first line parses but is not tagged
session_meta. -/
def exBadFile : TranscriptFile :=
  ⟨"/home/u/.codex/sessions/bad.jsonl", [some (Json.obj [("type", Json.str "message")])], 5⟩

/-- The raw user text of the title-extraction example of the spec. -/
def exRawText : String := "   fix   the   bug   in <environment_context> foo"

/-- The trimmed candidate produced from the example text. -/
def exText : String := "fix   the   bug   in <environment_context> foo"

/-- A parsed transcript line holding the example user message. -/
def exLine : Option Json :=
  some (Json.obj
    [("type", Json.str "response_item"),
     ("payload", Json.obj
       [("type", Json.str "message"),
        ("role", Json.str "user"),
        ("content", Json.arr
          [Json.obj [("type", Json.str "input_text"), ("text", Json.str exRawText)]])])])

/-- A ninety-character clean user message. -/
def ex90 : String :=
  "the quick brown fox jumps over the lazy dog while the cat watches from the warm windowsill"

/-- A session inside the example scope, most recently modified. -/
def wSessA : SessionMeta := ⟨"a", "", 10, "/repo/sub", "/f1", none, Json.null⟩

/-- A session outside the example scope, less recently modified. -/
def wSessB : SessionMeta := ⟨"b", "", 5, "/other", "/f2", none, Json.null⟩

theorem lookupField_map_replace (m : List (String × Json)) (k : String) (v : Json)
    (h : m.any (fun p => p.1 == k) = true) :
    lookupField (m.map (fun p => if p.1 = k then (k, v) else p)) k = some v := by
  induction m with
  | nil => simp at h
  | cons hd tl ih =>
    rw [List.map_cons]
    by_cases hk : hd.1 = k
    · rw [if_pos hk]
      simp [lookupField]
    · rw [if_neg hk]
      have h' : tl.any (fun p => p.1 == k) = true := by
        rw [List.any_cons] at h
        rcases Bool.or_eq_true_iff.mp h with hh | hh
        · exact absurd (beq_iff_eq.mp hh) hk
        · exact hh
      rw [lookupField, if_neg hk]
      exact ih h'

theorem lookupField_append_new (m : List (String × Json)) (k : String) (v : Json)
    (h : m.any (fun p => p.1 == k) = false) :
    lookupField (m ++ [(k, v)]) k = some v := by
  induction m with
  | nil => simp [lookupField]
  | cons hd tl ih =>
    rw [List.any_cons, Bool.or_eq_false_iff] at h
    have hk : hd.1 ≠ k := by
      intro hh
      rw [hh] at h
      simp at h
    rw [List.cons_append, lookupField, if_neg hk]
    exact ih h.2

theorem lookupField_upsert (m : List (String × Json)) (k : String) (v : Json) :
    lookupField (upsertEntry m k v) k = some v := by
  unfold upsertEntry
  by_cases h : m.any (fun p => p.1 == k) = true
  · rw [if_pos h]; exact lookupField_map_replace m k v h
  · rw [if_neg h]
    exact lookupField_append_new m k v (Bool.eq_false_iff.mpr h)

theorem lookupField_erase (m : List (String × Json)) (k : String) :
    lookupField (m.filter (fun p => p.1 != k)) k = none := by
  induction m with
  | nil => simp [lookupField]
  | cons hd tl ih =>
    rw [List.filter_cons]
    by_cases hk : hd.1 = k
    · rw [if_neg (by simp [hk])]
      exact ih
    · rw [if_pos (by simp [bne_iff_ne, hk])]
      rw [lookupField, if_neg hk]
      exact ih

/-- Claim C5: upserting a name for an id and loading immediately yields
a mapping whose entry for the id carries that name, and deleting the id
afterwards and loading again yields a mapping with no entry for the
id. -/
theorem name_store_round_trip (st : StoreFile) (id name now : String) :
    (∃ e, jsGet (loadSessionNames (saveSessionName st id name now)) id = some e ∧
          jsGet e "name" = some (Json.str name)) ∧
    jsGet (loadSessionNames ((deleteSessionName (saveSessionName st id name now) id).2)) id
      = none := by
  set U := upsertEntry (jsSpreadProps (loadSessionNames st)) id (entryJson name now) with hU
  have hsave : saveSessionName st id name now = some (some (Json.obj U)) := rfl
  have hget : jsGet (Json.obj U) id = some (entryJson name now) := by
    rw [hU]
    exact lookupField_upsert _ id (entryJson name now)
  constructor
  · refine ⟨entryJson name now, ?_, by simp [entryJson, jsGet, lookupField]⟩
    rw [hsave]
    exact hget
  · have hdel : (deleteSessionName (some (some (Json.obj U))) id).2
        = some (some (Json.obj (U.filter (fun p => p.1 != id)))) := by
      unfold deleteSessionName
      simp only [loadSessionNames]
      rw [hget]
      simp [entryJson, Json.truthy, jsSpreadProps]
    rw [hsave, hdel]
    simp only [loadSessionNames, jsGet]
    exact lookupField_erase _ id

/-- Claim C8: for every state of the override store file the load
operation returns a value, and on a missing file, unreadable file, or
unparseable content it returns the empty mapping rather than an
error. -/
theorem loadSessionNames_defaults :
    loadSessionNames none = Json.obj [] ∧
    loadSessionNames (some none) = Json.obj [] ∧
    ∀ j : Json, loadSessionNames (some (some j)) = (if j.isNull then Json.obj [] else j) := by
  refine ⟨rfl, rfl, fun j => ?_⟩
  cases j <;> rfl

/-- Claim C3: at both display sites the resolved label follows the
precedence override name, else extracted title, else the site's fixed
placeholder. -/
theorem display_label_precedence (s : SessionMeta) (names : Json) :
    formatNameTitle s names = specResolveLabel (overrideNameOf names s.id) s.title "untitled" ∧
    cliDisplayName s names = specResolveLabel (overrideNameOf names s.id) s.title "unnamed" := by
  unfold formatNameTitle cliDisplayName specResolveLabel overrideNameOf
  cases h : jsNullish (nameChain names s.id) <;> cases ht : s.title <;> simp [h, ht]

/-- Claim C1: the session list returned by listSessions is sorted
descending by lastModified, every adjacent pair satisfying the
inequality. -/
theorem listSessions_sorted_by_lastModified (files : List TranscriptFile) :
    List.Chain' (fun a b => b.lastModified ≤ a.lastModified) (listSessions files) := by
  have h : List.Sorted recencyLE (listSessions files) :=
    List.sorted_insertionSort recencyLE _
  exact List.Pairwise.chain' h

theorem extractTitle_all_ignorable (ls : List (Option Json))
    (h : ∀ l ∈ ls, ∀ u, lineCandidate l = some u → isIgnorablePrompt u = true) :
    extractTitle ls = none := by
  induction ls with
  | nil => rfl
  | cons hd tl ih =>
    have htl := ih (fun l hl u hu => h l (List.mem_cons_of_mem _ hl) u hu)
    cases hc : lineCandidate hd with
    | none => simp [extractTitle, hc, htl]
    | some u =>
      have hu := h hd (List.mem_cons_self _ _) u hc
      simp [extractTitle, hc, hu, htl]

/-- Claim C7: a candidate user text containing a boilerplate marker is
rejected, extraction falling through to the remaining lines, and the
title is absent when no later candidate qualifies. -/
theorem boilerplate_candidate_skipped (line : Option Json) (rest : List (Option Json))
    (t : String) (h1 : lineCandidate line = some t) (h2 : isIgnorablePrompt t = true) :
    extractTitle (line :: rest) = extractTitle rest ∧
    ((∀ l ∈ rest, ∀ u, lineCandidate l = some u → isIgnorablePrompt u = true) →
       extractTitle (line :: rest) = none) := by
  constructor
  · simp [extractTitle, h1, h2]
  · intro hall
    simp [extractTitle, h1, h2, extractTitle_all_ignorable rest hall]

/-- Witness for claim C7 at the concrete example of the spec. -/
theorem boilerplate_candidate_skipped_witness :
    lineCandidate exLine = some exText ∧ isIgnorablePrompt exText = true ∧
    extractTitle [exLine] = none := by
  refine ⟨by decide, by decide, ?_⟩
  exact (boilerplate_candidate_skipped exLine [] exText (by decide) (by decide)).2
    (fun l hl => (List.not_mem_nil l hl).elim)

/-- Claim C6: when the whitespace-collapsed source exceeds sixty
characters the stored title is its first fifty-seven characters followed
by the three-dot marker, sixty characters in all; a collapsed source of
at most sixty characters is returned unchanged. -/
theorem truncateTitle_spec (t : String) :
    (60 < (normalizeWhitespace t).length →
       (truncateTitle (normalizeWhitespace t) 60).data
         = (normalizeWhitespace t).data.take 57 ++ ('.' :: '.' :: '.' :: []) ∧
       (truncateTitle (normalizeWhitespace t) 60).length = 60) ∧
    ((normalizeWhitespace t).length ≤ 60 →
       truncateTitle (normalizeWhitespace t) 60 = normalizeWhitespace t) := by
  set s := normalizeWhitespace t with hs
  constructor
  · intro hlen
    have hnle : ¬ s.length ≤ 60 := by omega
    have hdl : s.data.length = s.length := rfl
    have hdata : (truncateTitle s 60).data = s.data.take 57 ++ ('.' :: '.' :: '.' :: []) := by
      simp [truncateTitle, hnle, String.data_append]
    refine ⟨hdata, ?_⟩
    have : (truncateTitle s 60).length = (truncateTitle s 60).data.length := rfl
    rw [this, hdata]
    simp [List.length_take]
    omega
  · intro hle
    simp [truncateTitle, hle]

/-- Witness for claim C6 at a concrete ninety-character message. -/
theorem truncateTitle_spec_witness :
    60 < (normalizeWhitespace ex90).length ∧
    (truncateTitle (normalizeWhitespace ex90) 60).data
      = (normalizeWhitespace ex90).data.take 57 ++ ('.' :: '.' :: '.' :: []) ∧
    (truncateTitle (normalizeWhitespace ex90) 60).length = 60 := by
  refine ⟨by decide, ?_, ?_⟩
  · exact ((truncateTitle_spec ex90).1 (by decide)).1
  · exact ((truncateTitle_spec ex90).1 (by decide)).2

/-- Claim C4: a transcript file whose first non-empty line fails to
parse, is not tagged session_meta, or lacks a payload id yields no
session record, and the listing is the same as if the file were not
present. -/
theorem rejected_file_yields_nothing (f : TranscriptFile)
    (h : f.lines.head? = some none ∨
         ∃ j, f.lines.head? = some (some j) ∧
              (jsGetStr j "type" ≠ some "session_meta" ∨ payloadIdVal j = none)) :
    readSessionMeta f.lines f.path f.mtime = none ∧
    ∀ l1 l2, listSessions (l1 ++ f :: l2) = listSessions (l1 ++ l2) := by
  have hnone : readSessionMeta f.lines f.path f.mtime = none := by
    rcases h with h | ⟨j, hj, hbad⟩
    · unfold readSessionMeta
      rw [h]
    · unfold readSessionMeta
      rw [hj]
      rcases hbad with hb | hb
      · simp [hb]
      · by_cases hty : jsGetStr j "type" = some "session_meta"
        · simp [hty, hb]
        · simp [hty]
  refine ⟨hnone, fun l1 l2 => ?_⟩
  unfold listSessions
  congr 1
  simp [List.filterMap_append, List.filterMap_cons, hnone]

theorem splitChars_ne_nil (l : List Char) : splitChars l ≠ [] := by
  cases l with
  | nil => simp [splitChars]
  | cons c rest =>
    unfold splitChars
    by_cases h : c = '/' <;> simp [h]

theorem mem_splitChars_no_slash (l : List Char) : ∀ s ∈ splitChars l, '/' ∉ s := by
  induction l with
  | nil =>
    intro s hs
    simp [splitChars] at hs
    simp [hs]
  | cons c rest ih =>
    intro s hs
    unfold splitChars at hs
    by_cases h : c = '/'
    · rw [if_pos h] at hs
      rcases List.mem_cons.mp hs with hs | hs
      · simp [hs]
      · exact ih s hs
    · rw [if_neg h] at hs
      rcases List.mem_cons.mp hs with hs | hs
      · subst hs
        intro hmem
        rcases List.mem_cons.mp hmem with hh | hh
        · exact h hh.symm
        · cases hr : splitChars rest with
          | nil => exact splitChars_ne_nil rest hr
          | cons s0 ss =>
            rw [hr] at hh
            exact ih s0 (by rw [hr]; exact List.mem_cons_self _ _) (by simpa using hh)
      · exact ih s (List.mem_of_mem_tail hs)

theorem splitChars_append (s r : List Char) (h : '/' ∉ s) :
    splitChars (s ++ r) = (s ++ (splitChars r).headI) :: (splitChars r).tail := by
  induction s with
  | nil =>
    simp only [List.nil_append]
    cases hr : splitChars r with
    | nil => exact absurd hr (splitChars_ne_nil r)
    | cons s0 ss => simp
  | cons c cs ih =>
    have hc : c ≠ '/' := by
      intro hh
      exact h (by simp [hh])
    have h' : '/' ∉ cs := fun hh => h (List.mem_cons_of_mem _ hh)
    rw [List.cons_append]
    simp only [splitChars]
    rw [if_neg hc, ih h']
    simp

theorem mem_pathSegsC (l : List Char) : ∀ s ∈ pathSegsC l, s ≠ [] ∧ '/' ∉ s := by
  intro s hs
  have h2 := List.mem_filter.mp hs
  exact ⟨by simpa using h2.2, mem_splitChars_no_slash l s h2.1⟩

theorem pathSegsC_cons_slash (l : List Char) : pathSegsC ('/' :: l) = pathSegsC l := by
  simp [pathSegsC, splitChars, List.filter_cons]

theorem pathSegsC_join : ∀ segs : List (List Char),
    (∀ s ∈ segs, s ≠ [] ∧ '/' ∉ s) → pathSegsC (joinSegs segs) = segs := by
  intro segs
  induction segs with
  | nil => intro _; rfl
  | cons s rest ih =>
    intro h
    have hs := h s (List.mem_cons_self _ _)
    cases rest with
    | nil =>
      have hsplit := splitChars_append s [] hs.2
      simp only [splitChars, List.headI_cons, List.tail_cons, List.append_nil] at hsplit
      show pathSegsC (joinSegs [s]) = [s]
      rw [show joinSegs [s] = s from rfl]
      unfold pathSegsC
      rw [hsplit]
      simp [List.filter_cons, hs.1]
    | cons s2 rest2 =>
      have h' : ∀ x ∈ s2 :: rest2, x ≠ [] ∧ '/' ∉ x := fun x hx => h x (List.mem_cons_of_mem _ hx)
      have hj : joinSegs (s :: s2 :: rest2) = s ++ '/' :: joinSegs (s2 :: rest2) := rfl
      unfold pathSegsC
      rw [hj, splitChars_append s _ hs.2]
      rw [show splitChars ('/' :: joinSegs (s2 :: rest2))
            = [] :: splitChars (joinSegs (s2 :: rest2)) from by simp [splitChars]]
      simp only [List.headI_cons, List.tail_cons, List.append_nil]
      rw [List.filter_cons, if_pos (by simp [hs.1])]
      have htl := ih h'
      unfold pathSegsC at htl
      rw [htl]

theorem mem_normStep : ∀ (l acc : List (List Char)) (s : List Char), s ∈ normStep acc l →
    s ∈ acc ∨ (s ∈ l ∧ s ≠ ['.'] ∧ s ≠ ['.', '.']) := by
  intro l
  induction l with
  | nil =>
    intro acc s hs
    simp only [normStep] at hs
    exact Or.inl (List.mem_reverse.mp hs)
  | cons hd tl ih =>
    intro acc s hs
    simp only [normStep] at hs
    by_cases h1 : hd = ['.']
    · rw [if_pos h1] at hs
      rcases ih acc s hs with h | h
      · exact Or.inl h
      · exact Or.inr ⟨List.mem_cons_of_mem _ h.1, h.2⟩
    · rw [if_neg h1] at hs
      by_cases h2 : hd = ['.', '.']
      · rw [if_pos h2] at hs
        rcases ih acc.tail s hs with h | h
        · exact Or.inl (List.mem_of_mem_tail h)
        · exact Or.inr ⟨List.mem_cons_of_mem _ h.1, h.2⟩
      · rw [if_neg h2] at hs
        rcases ih (hd :: acc) s hs with h | h
        · rcases List.mem_cons.mp h with h | h
          · subst h
            exact Or.inr ⟨List.mem_cons_self _ _, h1, h2⟩
          · exact Or.inl h
        · exact Or.inr ⟨List.mem_cons_of_mem _ h.1, h.2⟩

theorem normStep_clean : ∀ (l acc : List (List Char)),
    (∀ s ∈ l, s ≠ ['.'] ∧ s ≠ ['.', '.']) → normStep acc l = acc.reverse ++ l := by
  intro l
  induction l with
  | nil => intro acc _; simp [normStep]
  | cons hd tl ih =>
    intro acc h
    have hh := h hd (List.mem_cons_self _ _)
    simp only [normStep]
    rw [if_neg hh.1, if_neg hh.2]
    rw [ih (hd :: acc) (fun s hs => h s (List.mem_cons_of_mem _ hs))]
    simp

theorem mem_resolveSegs (cwd0 p : String) :
    ∀ s ∈ resolveSegs cwd0 p, s ≠ [] ∧ '/' ∉ s ∧ s ≠ ['.'] ∧ s ≠ ['.', '.'] := by
  intro s hs
  unfold resolveSegs normSegs at hs
  rcases mem_normStep _ [] s hs with h | h
  · simp at h
  · have hsin := h.1
    have hgood : s ≠ [] ∧ '/' ∉ s := by
      by_cases hab : jsIsAbsolute p = true
      · rw [if_pos hab] at hsin
        exact mem_pathSegsC _ s hsin
      · rw [if_neg hab] at hsin
        rcases List.mem_append.mp hsin with hh | hh
        · exact mem_pathSegsC _ s hh
        · exact mem_pathSegsC _ s hh
    exact ⟨hgood.1, hgood.2, h.2.1, h.2.2⟩

theorem resolveSegs_resolvePath (cwd0 p : String) :
    resolveSegs cwd0 (resolvePath cwd0 p) = resolveSegs cwd0 p := by
  have hclean : ∀ s ∈ resolveSegs cwd0 p, s ≠ [] ∧ '/' ∉ s := fun s hs =>
    ⟨(mem_resolveSegs cwd0 p s hs).1, (mem_resolveSegs cwd0 p s hs).2.1⟩
  have hnodot : ∀ s ∈ resolveSegs cwd0 p, s ≠ ['.'] ∧ s ≠ ['.', '.'] := fun s hs =>
    ⟨(mem_resolveSegs cwd0 p s hs).2.2.1, (mem_resolveSegs cwd0 p s hs).2.2.2⟩
  have habs : jsIsAbsolute (resolvePath cwd0 p) = true := rfl
  rw [show resolveSegs cwd0 (resolvePath cwd0 p)
        = normSegs (pathSegsC (resolvePath cwd0 p).data) from by
      unfold resolveSegs
      rw [if_pos habs]]
  rw [show (resolvePath cwd0 p).data = '/' :: joinSegs (resolveSegs cwd0 p) from rfl]
  rw [pathSegsC_cons_slash, pathSegsC_join _ hclean]
  unfold normSegs
  rw [normStep_clean _ [] hnodot]
  simp

theorem commonPrefixLen_le : ∀ f t : List (List Char), commonPrefixLen f t ≤ f.length := by
  intro f
  induction f with
  | nil => intro t; cases t <;> simp [commonPrefixLen]
  | cons a as ih =>
    intro t
    cases t with
    | nil => simp [commonPrefixLen]
    | cons b bs =>
      by_cases h : a = b
      · simp only [commonPrefixLen, if_pos h, List.length_cons]
        exact Nat.succ_le_succ (ih bs)
      · simp [commonPrefixLen, h]

theorem commonPrefixLen_self_append : ∀ f r : List (List Char),
    commonPrefixLen f (f ++ r) = f.length := by
  intro f r
  induction f with
  | nil => cases r <;> simp [commonPrefixLen]
  | cons a as ih => simp [commonPrefixLen, ih]

theorem commonPrefixLen_cons (a b : List Char) (as bs : List (List Char)) :
    commonPrefixLen (a :: as) (b :: bs)
      = if a = b then commonPrefixLen as bs + 1 else 0 := by
  simp [commonPrefixLen]

theorem commonPrefixLen_nil_right (a : List Char) (as : List (List Char)) :
    commonPrefixLen (a :: as) [] = 0 := by
  simp [commonPrefixLen]

theorem exists_append_of_commonPrefixLen : ∀ f t : List (List Char),
    commonPrefixLen f t = f.length → ∃ r, t = f ++ r := by
  intro f
  induction f with
  | nil => intro t _; exact ⟨t, rfl⟩
  | cons a as ih =>
    intro t h
    cases t with
    | nil =>
      rw [commonPrefixLen_nil_right, List.length_cons] at h
      omega
    | cons b bs =>
      rw [commonPrefixLen_cons, List.length_cons] at h
      by_cases hab : a = b
      · subst hab
        rw [if_pos rfl] at h
        have h' : commonPrefixLen as bs = as.length := by omega
        obtain ⟨r, hr⟩ := ih bs h'
        exact ⟨r, by rw [hr, List.cons_append]⟩
      · rw [if_neg hab] at h
        omega

theorem joinSegs_cons (s : List Char) (rs : List (List Char)) :
    ∃ w, joinSegs (s :: rs) = s ++ w := by
  cases rs with
  | nil => exact ⟨[], (List.append_nil s).symm⟩
  | cons s2 rs2 => exact ⟨'/' :: joinSegs (s2 :: rs2), rfl⟩

theorem isPrefixB_dotdot_join (r0 : List Char) (rs : List (List Char)) :
    isPrefixB ['.', '.'] (joinSegs (r0 :: rs)) = isPrefixB ['.', '.'] r0 := by
  cases rs with
  | nil => rfl
  | cons s2 rs2 =>
    rw [show joinSegs (r0 :: s2 :: rs2) = r0 ++ '/' :: joinSegs (s2 :: rs2) from rfl]
    cases r0 with
    | nil =>
      rw [List.nil_append]
      rw [show isPrefixB ['.', '.'] ('/' :: joinSegs (s2 :: rs2))
            = (('.' == '/') && isPrefixB ['.'] (joinSegs (s2 :: rs2))) from rfl]
      rw [show ('.' == '/') = false from rfl]
      rfl
    | cons c0 r0' =>
      cases r0' with
      | nil =>
        rw [show ([c0] ++ '/' :: joinSegs (s2 :: rs2))
              = c0 :: '/' :: joinSegs (s2 :: rs2) from rfl]
        rw [show isPrefixB ['.', '.'] (c0 :: '/' :: joinSegs (s2 :: rs2))
              = (('.' == c0) && (('.' == '/') && isPrefixB [] (joinSegs (s2 :: rs2)))) from rfl]
        rw [show ('.' == '/') = false from rfl]
        rw [show isPrefixB ['.', '.'] [c0] = (('.' == c0) && false) from rfl]
        simp
      | cons c1 r0'' =>
        rw [show ((c0 :: c1 :: r0'') ++ '/' :: joinSegs (s2 :: rs2))
              = c0 :: c1 :: (r0'' ++ '/' :: joinSegs (s2 :: rs2)) from rfl]
        rw [show isPrefixB ['.', '.'] (c0 :: c1 :: (r0'' ++ '/' :: joinSegs (s2 :: rs2)))
              = (('.' == c0) && (('.' == c1) && true)) from rfl]
        rw [show isPrefixB ['.', '.'] (c0 :: c1 :: r0'')
              = (('.' == c0) && (('.' == c1) && true)) from rfl]

theorem isWithin_eq_spec (cwd0 a b : String) :
    isWithin cwd0 (resolvePath cwd0 a) (resolvePath cwd0 b)
      = specWithinSegs (resolveSegs cwd0 a) (resolveSegs cwd0 b) := by
  have hrel : relativePath cwd0 (resolvePath cwd0 a) (resolvePath cwd0 b)
      = ⟨joinSegs (relativeSegs (resolveSegs cwd0 a) (resolveSegs cwd0 b))⟩ := by
    unfold relativePath
    rw [resolveSegs_resolvePath, resolveSegs_resolvePath]
  set f := resolveSegs cwd0 a with hf
  set t := resolveSegs cwd0 b with ht
  unfold isWithin
  rw [hrel]
  have hle := commonPrefixLen_le f t
  rcases Nat.lt_or_ge (commonPrefixLen f t) f.length with hlt | hge
  · obtain ⟨k, hk⟩ : ∃ k, f.length - commonPrefixLen f t = k + 1 :=
      ⟨f.length - commonPrefixLen f t - 1, by omega⟩
    have hrepl : relativeSegs f t
        = ['.', '.'] :: (List.replicate k ['.', '.'] ++ t.drop (commonPrefixLen f t)) := by
      unfold relativeSegs
      rw [hk, List.replicate_succ, List.cons_append]
    have hpre : isPrefixB ['.', '.'] (joinSegs (relativeSegs f t)) = true := by
      rw [hrepl, isPrefixB_dotdot_join]
      rfl
    have hne : (⟨joinSegs (relativeSegs f t)⟩ : String) ≠ "" := by
      rw [hrepl]
      obtain ⟨w, hw⟩ :=
        joinSegs_cons ['.', '.'] (List.replicate k ['.', '.'] ++ t.drop (commonPrefixLen f t))
      intro hh
      have hdd := congrArg String.data hh
      rw [show (⟨joinSegs (['.', '.']
            :: (List.replicate k ['.', '.'] ++ t.drop (commonPrefixLen f t)))⟩ : String).data
          = joinSegs (['.', '.']
            :: (List.replicate k ['.', '.'] ++ t.drop (commonPrefixLen f t))) from rfl] at hdd
      rw [hw] at hdd
      simp at hdd
    rw [if_neg hne]
    rw [show jsStartsWith (⟨joinSegs (relativeSegs f t)⟩ : String) ".."
          = isPrefixB ['.', '.'] (joinSegs (relativeSegs f t)) from rfl]
    rw [hpre]
    simp only [Bool.not_true, Bool.false_and]
    have htk : ¬ t.take f.length = f := by
      intro hh
      have hsplit : t = f ++ t.drop f.length := by
        conv_lhs => rw [← List.take_append_drop f.length t, hh]
      have h2 : commonPrefixLen f t = f.length := by
        conv_lhs => rw [hsplit]
        exact commonPrefixLen_self_append f _
      omega
    unfold specWithinSegs
    rw [decide_eq_false htk]
    simp
  · have hceq : commonPrefixLen f t = f.length := Nat.le_antisymm hle hge
    obtain ⟨r, hr⟩ := exists_append_of_commonPrefixLen f t hceq
    have hdrop : t.drop f.length = r := by
      rw [hr]
      exact List.drop_left f r
    have htake : t.take f.length = f := by
      rw [hr]
      exact List.take_left f r
    have hrepl : relativeSegs f t = r := by
      unfold relativeSegs
      rw [hceq, Nat.sub_self, List.replicate_zero, List.nil_append, hdrop]
    rw [hrepl]
    unfold specWithinSegs
    rw [decide_eq_true htake, hdrop]
    cases r with
    | nil =>
      rw [show (⟨joinSegs []⟩ : String) = "" from rfl]
      rw [if_pos rfl]
      rfl
    | cons r0 rs =>
      have hr0 : r0 ∈ resolveSegs cwd0 b := by
        rw [← ht, hr]
        exact List.mem_append_right f (List.mem_cons_self _ _)
      have hr0c := mem_resolveSegs cwd0 b r0 hr0
      obtain ⟨c0, r0', rfl⟩ : ∃ c0 r0', r0 = c0 :: r0' := by
        cases r0 with
        | nil => exact absurd rfl hr0c.1
        | cons c0 r0' => exact ⟨c0, r0', rfl⟩
      have hc0 : c0 ≠ '/' := by
        intro hh
        exact hr0c.2.1 (by simp [hh])
      obtain ⟨w, hw⟩ := joinSegs_cons (c0 :: r0') rs
      have hne : (⟨joinSegs ((c0 :: r0') :: rs)⟩ : String) ≠ "" := by
        intro hh
        have hdd := congrArg String.data hh
        rw [show (⟨joinSegs ((c0 :: r0') :: rs)⟩ : String).data
              = joinSegs ((c0 :: r0') :: rs) from rfl] at hdd
        rw [hw] at hdd
        simp at hdd
      rw [if_neg hne]
      rw [show jsStartsWith (⟨joinSegs ((c0 :: r0') :: rs)⟩ : String) ".."
            = isPrefixB ['.', '.'] (joinSegs ((c0 :: r0') :: rs)) from rfl]
      rw [isPrefixB_dotdot_join]
      have habs : jsIsAbsolute (⟨joinSegs ((c0 :: r0') :: rs)⟩ : String) = false := by
        rw [show jsIsAbsolute (⟨joinSegs ((c0 :: r0') :: rs)⟩ : String)
              = jsIsAbsolute (⟨(c0 :: r0') ++ w⟩ : String) from by rw [hw]]
        rw [show ((c0 :: r0') ++ w) = c0 :: (r0' ++ w) from rfl]
        rw [show jsIsAbsolute (⟨c0 :: (r0' ++ w)⟩ : String) = (c0 == '/') from rfl]
        exact beq_eq_false_iff_ne.mpr hc0
      rw [habs]
      simp [firstSegDotDot]

/-- Counterexample to claim C2 as stated: the session working directory
resolves to a true path-descendant of the resolved scope, yet the scope
filter excludes it, because the relative path between them starts with
two literal dots that do not form a parent-traversal component. -/
theorem filterSessionsByCwd_claim_counterexample :
    cexSession.cwd ≠ "" ∧
    descendantOrEqual (resolvePath "/" "/a") (resolvePath "/" cexSession.cwd) ∧
    filterSessionsByCwd "/" [cexSession] "/a" = [] := by
  refine ⟨by decide, Or.inr ⟨"..b", by decide, by decide⟩, rfl⟩

/-- Claim C2 (amended): filterSessionsByCwd retains exactly the records
whose working directory is non-empty and whose resolved segments extend
the resolved scope segments (equality included), except that a record
whose first segment below the scope begins with two literal dots is also
excluded (the relative-path string then starts with the two-dot
marker). -/
theorem filterSessionsByCwd_amended (cwd0 : String) (sessions : List SessionMeta)
    (cwd : String) :
    filterSessionsByCwd cwd0 sessions cwd = sessions.filter (specRetained cwd0 cwd) := by
  simp only [filterSessionsByCwd]
  apply List.filter_congr
  intro s _
  unfold specRetained
  by_cases hc : s.cwd = ""
  · rw [if_pos hc, hc]
    simp
  · rw [if_neg hc]
    rw [isWithin_eq_spec cwd0 cwd s.cwd]
    rw [decide_eq_true hc]
    simp

/-- Claim C9: filtering an already-filtered list by the same scope
yields the same list. -/
theorem filterSessionsByCwd_idempotent (cwd0 : String) (sessions : List SessionMeta)
    (cwd : String) :
    filterSessionsByCwd cwd0 (filterSessionsByCwd cwd0 sessions cwd) cwd
      = filterSessionsByCwd cwd0 sessions cwd := by
  simp only [filterSessionsByCwd, List.filter_filter, Bool.and_self]

/-- Claim C10: scope filtering returns a subsequence of its input, and a
list sorted descending by lastModified stays so sorted, so the head of
the scoped list is the most recent in-scope session. -/
theorem filterSessionsByCwd_sublist_sorted (cwd0 : String) (sessions : List SessionMeta)
    (cwd : String) (h : List.Pairwise recencyLE sessions) :
    List.Sublist (filterSessionsByCwd cwd0 sessions cwd) sessions ∧
    List.Pairwise recencyLE (filterSessionsByCwd cwd0 sessions cwd) := by
  have hsub : List.Sublist (filterSessionsByCwd cwd0 sessions cwd) sessions := by
    simp only [filterSessionsByCwd]
    exact List.filter_sublist _
  exact ⟨hsub, h.sublist hsub⟩

/-- Witness for claim C10 at a concrete sorted two-session list. -/
theorem filterSessionsByCwd_sublist_sorted_witness :
    List.Pairwise recencyLE [wSessA, wSessB] ∧
    List.Sublist (filterSessionsByCwd "/" [wSessA, wSessB] "/repo") [wSessA, wSessB] ∧
    List.Pairwise recencyLE (filterSessionsByCwd "/" [wSessA, wSessB] "/repo") := by
  have hp : List.Pairwise recencyLE [wSessA, wSessB] := by
    refine List.Pairwise.cons (fun b hb => ?_)
      (List.Pairwise.cons (fun b hb => (List.not_mem_nil b hb).elim) List.Pairwise.nil)
    rw [List.mem_singleton] at hb
    subst hb
    show wSessB.lastModified ≤ wSessA.lastModified
    decide
  exact ⟨hp, (filterSessionsByCwd_sublist_sorted "/" [wSessA, wSessB] "/repo" hp).1,
    (filterSessionsByCwd_sublist_sorted "/" [wSessA, wSessB] "/repo" hp).2⟩

/-- Witness for claim C4 at a concrete mistagged transcript file. -/
theorem rejected_file_yields_nothing_witness :
    (∃ j, exBadFile.lines.head? = some (some j) ∧
       (jsGetStr j "type" ≠ some "session_meta" ∨ payloadIdVal j = none)) ∧
    readSessionMeta exBadFile.lines exBadFile.path exBadFile.mtime = none ∧
    listSessions [exBadFile] = listSessions [] := by
  have h := rejected_file_yields_nothing exBadFile
    (Or.inr ⟨Json.obj [("type", Json.str "message")], rfl, Or.inl (by decide)⟩)
  exact ⟨⟨Json.obj [("type", Json.str "message")], rfl, Or.inl (by decide)⟩, h.1, h.2 [] []⟩

end Codexer
